import Mathlib

/-!
# Verification of the QIOToolkit documentation converter

Shallow embedding of `src/doc/doxygen2docfx.py` (Stage A: streaming XML →
DocFX item records) and `src/doc/generate_xrefmap.py` (Stage B: cross
reference linker), with theorems settling the specification claims.

Python strings are modelled as Lean `String`s (lists of characters);
Python dictionaries keyed by strings are modelled as association lists
updated in place.  Python code that raises an exception (`KeyError`,
`AttributeError`) is modelled by returning `none`.
-/

namespace QioDoc

/-! ## Basic string helpers (Python semantics, over `List Char`) -/

/-- Python `\s` character class, restricted to the ASCII whitespace
characters (the only ones appearing in the converter's inputs). -/
def isPySpace (c : Char) : Bool :=
  c = ' ' || c = '\t' || c = '\n' || c = '\r' || c = '\x0b' || c = '\x0c'

/-- Python `str.strip()`: remove leading and trailing whitespace. -/
def pyStrip (s : String) : String :=
  String.mk (((s.data.dropWhile isPySpace).reverse.dropWhile isPySpace).reverse)

/-- Recursion core of `pyReplace`, structurally recursive on a fuel
argument so that it evaluates by kernel reduction; with `fuel = l.length`
and a non-empty pattern the fuel never runs out (each step consumes at
least one character of `l`). -/
def pyReplaceFuel : Nat → List Char → List Char → List Char → List Char
  | 0, l, _, _ => l
  | fuel + 1, l, pat, rep =>
    match l with
    | [] => []
    | c :: rest =>
      if pat ≠ [] ∧ pat.isPrefixOf (c :: rest) then
        rep ++ pyReplaceFuel fuel ((c :: rest).drop pat.length) pat rep
      else
        c :: pyReplaceFuel fuel rest pat rep

/-- Left-to-right, non-overlapping replacement of every occurrence of the
literal pattern `pat` by `rep` — the behaviour of Python's `re.sub` on a
pattern without metacharacters.  `pat` is non-empty at every call site. -/
def pyReplace (l pat rep : List Char) : List Char :=
  pyReplaceFuel l.length l pat rep

/-- `pyReplace` lifted to `String`. -/
def pyReplaceStr (s pat rep : String) : String :=
  String.mk (pyReplace s.data pat.data rep.data)

/-- Python `str.startswith` on our string model. -/
def pyStarts (s pre : String) : Bool :=
  pre.data.isPrefixOf s.data

/-- Split a character list at every newline (Python regex matching is
line-oriented because `.` does not match `\n`). -/
def splitLines : List Char → List (List Char)
  | [] => [[]]
  | c :: rest =>
    match splitLines rest with
    | [] => [[]]
    | line :: more =>
      if c = '\n' then [] :: line :: more else (c :: line) :: more

/-- Reassemble the pieces produced by `splitLines`. -/
def joinLines : List (List Char) → List Char
  | [] => []
  | [l] => l
  | l :: rest => l ++ '\n' :: joinLines rest

/-! ## `translate` (doxygen2docfx.py, lines 24–33) -/

/-- Kind/language translation table. -/
def translate (doxy : String) : String :=
  if doxy = "C++" then "cpp"
  else if doxy = "variable" then "field"
  else doxy

/-! ## `camel2dashed` (doxygen2docfx.py, lines 36–41) -/

/-- `re.sub('[A-Z]+', lambda m: '-' + m.group(0).lower(), name)`: each
maximal run of ASCII uppercase letters becomes a dash followed by the
lowercased run.  The boolean argument records whether the previous
character belonged to an uppercase run. -/
def camelAux : Bool → List Char → List Char
  | _, [] => []
  | prevUp, c :: cs =>
    if c.isUpper then
      (if prevUp then [c.toLower] else ['-', c.toLower]) ++ camelAux true cs
    else
      c :: camelAux false cs

/-- Python `str.strip('-')`: remove leading and trailing dashes. -/
def stripDashes (l : List Char) : List Char :=
  ((l.dropWhile (· = '-')).reverse.dropWhile (· = '-')).reverse

/-- `camel2dashed`: uppercase runs to dash+lowercase, collapse `_-` to `_`,
then strip dashes at both ends. -/
def camel2dashed (name : String) : String :=
  let l := camelAux false name.data
  let l := pyReplace l "_-".data "_".data
  String.mk (stripDashes l)

/-! ## `id_sorting` (doxygen2docfx.py, lines 44–45) -/

/-- `re.sub(r'^(class|struct|namespace)', '', item_id)`: remove one leading
kind marker (the pattern is anchored, so at most one substitution fires). -/
def id_sorting (item_id : String) : String :=
  if pyStarts item_id "class" then String.mk (item_id.data.drop 5)
  else if pyStarts item_id "struct" then String.mk (item_id.data.drop 6)
  else if pyStarts item_id "namespace" then String.mk (item_id.data.drop 9)
  else item_id

/-! ## Position scanning helpers for the remaining regex substitutions -/

/-- Does the literal pattern `pat` occur at index `i` of `l`? -/
def occursAt (pat l : List Char) (i : Nat) : Bool :=
  pat.isPrefixOf (l.drop i)

/-- The largest index `j` with `lo ≤ j` at which `pat` occurs in `l`
(greedy `(.*)` backtracking finds the rightmost completion). -/
def lastMatchPos (pat l : List Char) (lo : Nat) : Option Nat :=
  ((List.range l.length).filter (fun i => lo ≤ i && occursAt pat l i)).getLast?

/-- Python `re.search` with a metacharacter-free pattern: does `pat`
occur anywhere in `s`? -/
def pyContains (s pat : String) : Bool :=
  (List.range (s.data.length + 1)).any (fun i => occursAt pat.data s.data i)

/-! ## `DocFxHandler.translate_path` (doxygen2docfx.py, lines 366–375) -/

/-- First index of `l` at which `doxygen/xml/` followed by one of the kind
markers `struct`, `class`, `namespace` occurs, paired with the length of
that fixed part of the match.  The alternatives are mutually non-prefix,
so at each index at most one of them can match. -/
def findKind : List Char → Nat → Option (Nat × Nat)
  | [], _ => none
  | l@(_ :: rest), i =>
    if occursAt "doxygen/xml/struct".data l 0 then some (i, 18)
    else if occursAt "doxygen/xml/class".data l 0 then some (i, 17)
    else if occursAt "doxygen/xml/namespace".data l 0 then some (i, 21)
    else findKind rest (i + 1)

/-- One line of `re.sub(r"doxygen/xml/(struct|class|namespace)(.*)\.xml",
"\\2.yml", path)`.  A match cannot span a newline (`.` excludes `\n`), so
substitution proceeds line by line; within a line the engine matches at the
first kind position and the greedy `(.*)` extends group 2 to the last
`.xml` occurrence, after which no further match is possible in the line. -/
def subDoxLine (l : List Char) : List Char :=
  match findKind l 0 with
  | none => l
  | some (i, klen) =>
    match lastMatchPos ".xml".data l (i + klen) with
    | none => l
    | some j =>
      l.take i ++ ((l.take j).drop (i + klen)) ++ ".yml".data ++ l.drop (j + 4)

/-- The full documentation-extractor-path substitution, over all lines. -/
def subDoxXml (s : String) : String :=
  String.mk (joinLines ((splitLines s.data).map subDoxLine))

/-- `DocFxHandler.translate_path`: extractor-directory substitution, drop
every `1_1` infix, strip the `qiotoolkit_` project marker when the path
starts with it, camel-case to dashed form, underscores to path separators,
and prefix `api/`. -/
def translate_path (path : String) : String :=
  let path := subDoxXml path
  let path := pyReplaceStr path "1_1" ""
  let path := if pyStarts path "qiotoolkit_" then
      pyReplaceStr path "qiotoolkit_" "" else path
  let path := camel2dashed path
  let path := pyReplaceStr path "_" "/"
  "api/" ++ path

/-- The output-file decision of `convert` (doxygen2docfx.py, lines
401–432) for the branch that writes one record per input file: paths under
the namespace-matcher convention and plain namespace paths are handled by
other branches (no `translate_path` output), and the two suppressed
translated paths produce no file at all. -/
def convertOutputFile (path : String) : Option String :=
  if pyContains path "/namespacematcher" then none
  else if pyContains path "/namespace" then none
  else if translate_path path = "api/std/optional.yml" ∨
      translate_path path = "api/ValueSetter/3_01std_optional_3_01T_01_4_01_4.yml" then
    none
  else
    some (translate_path path)

/-! ## `re.sub(".*::", "", parent_name)` (doxygen2docfx.py, line 143) -/

/-- One line of `re.sub(".*::", "", s)`: the greedy `.*` extends the match
to the last `::` of the line, so everything up to and including that
occurrence is removed; a line without `::` is unchanged. -/
def stripQualLine (l : List Char) : List Char :=
  match lastMatchPos "::".data l 0 with
  | none => l
  | some j => l.drop (j + 2)

/-- `re.sub(".*::", "", s)` over the whole string (matches cannot span a
newline). -/
def stripQual (s : String) : String :=
  String.mk (joinLines ((splitLines s.data).map stripQualLine))

/-! ## `Formula.leave` rewriting (doxygen2docfx.py, lines 333–345) -/

/-- Match/substitute for `re.sub(r'^\s*\\\[(.*)\\\]\s*$', '\1', content)`:
after the maximal whitespace run the text must read `\[`, the greedy group
runs (without crossing a newline) to the rightmost `\]` that is followed
only by whitespace, and — the match extending to the end anchor — the
whole string is replaced by the group.  `none` means the pattern does not
match at position 0 (so `re.match` is false and the substitution is
skipped). -/
def displaySubRes (content : String) : Option String :=
  let l := content.data.dropWhile isPySpace
  if "\\[".data.isPrefixOf l then
    let body := l.drop 2
    match ((List.range body.length).filter (fun j =>
        ((body.take j).all (· ≠ '\n')) && occursAt "\\]".data body j &&
        ((body.drop (j + 2)).all isPySpace))).getLast? with
    | some j => some (String.mk (body.take j))
    | none => none
  else none

/-- Match/substitute for `re.sub(r'^\s*\$(.*)\$\s*', '\1', content)`: after
the maximal whitespace run the text must read `$`, the greedy group runs
(within the line) to the rightmost further `$`, and the match then absorbs
the following whitespace run; the pattern has no end anchor, so any
remaining tail survives after the substituted group. -/
def inlineSubRes (content : String) : Option String :=
  let l := content.data.dropWhile isPySpace
  if "$".data.isPrefixOf l then
    let body := l.drop 1
    match ((List.range body.length).filter (fun j =>
        ((body.take j).all (· ≠ '\n')) && occursAt "$".data body j)).getLast? with
    | some j => some (String.mk (body.take j ++ (body.drop (j + 1)).dropWhile isPySpace))
    | none => none
  else none

/-- The rewriting applied by `Formula.leave`: the first matching pattern's
substitution is applied (the `break` after a match makes it exactly one),
and unmatched text passes through unchanged. -/
def formulaRewrite (content : String) : String :=
  match displaySubRes content with
  | some r => r
  | none =>
    match inlineSubRes content with
    | some r => r
    | none => content

/-! ## Handler nodes and the content-delegation chain

A `TagHandler` instance (doxygen2docfx.py, lines 54–104) is ephemeral: it
holds its element's tag, an optional owned text buffer (`self.text`,
initialised to `None` by `TagHandler.create`), relevant XML attributes,
and a parent back-reference.  We model the live ancestor chain of a node
as the list of nodes from the node itself up to the root, so `chain.head`
is the node and `chain.tail` its parent chain. -/

structure HNode where
  tag : String := ""
  text : Option String := none
  is_closed : Bool := false
  filename : Option String := none
deriving Repr, DecidableEq

/-- `TagHandler.add_content` (doxygen2docfx.py, lines 82–88): append to the
own buffer when one is owned, otherwise delegate to the parent, and drop
the content when no ancestor owns a buffer. -/
def add_content : List HNode → String → List HNode
  | [], _ => []
  | n :: rest, c =>
    match n.text with
    | some t => { n with text := some (t ++ c) } :: rest
    | none => n :: add_content rest c

/-- `TagHandler.get_content` (doxygen2docfx.py, lines 90–95): the nearest
owned buffer at or above the node, `none` when no ancestor owns one. -/
def get_content : List HNode → Option String
  | [] => none
  | n :: rest =>
    match n.text with
    | some t => some t
    | none => get_content rest

/-! ## `Ref` and `ComputerOutput` (doxygen2docfx.py, lines 233–241 and
294–310) -/

/-- The buffer surgery of `Ref.enter` when nested in a `computeroutput`
span: walk up from the given node to the nearest buffer owner and replace
its buffer `t` by `t[:-1] + '[' + t[-1:]` — the opening bracket lands
immediately before the buffer's last character.  A chain with no owner is
left untouched (the walk reaches `None`). -/
def insertOpenBracket : List HNode → List HNode
  | [] => []
  | n :: rest =>
    match n.text with
    | some t =>
      { n with text := some ((String.mk (t.data.take (t.data.length - 1))) ++ "[" ++
          (String.mk (t.data.drop (t.data.length - 1)))) } :: rest
    | none => n :: insertOpenBracket rest

/-- `Ref.enter`: inside an inline-code span perform the buffer surgery
starting at the parent node; otherwise emit `[` through the ordinary
content delegation (the `ref` node itself owns no buffer). -/
def refEnter (chain : List HNode) : List HNode :=
  match chain with
  | self :: parent :: rest =>
    if parent.tag = "computeroutput" then
      self :: insertOpenBracket (parent :: rest)
    else
      add_content (self :: parent :: rest) "["
  | _ => add_content chain "["

/-- `Ref.leave` with `refid` the element's `refid` attribute: inside an
inline-code span append a closing backtick and mark the span self-closed;
in both cases append the `](xref:<refid>)` suffix. -/
def refLeave (chain : List HNode) (refid : String) : List HNode :=
  match chain with
  | self :: parent :: rest =>
    if parent.tag = "computeroutput" then
      match add_content (self :: parent :: rest) "`" with
      | s :: p :: r =>
        add_content (s :: { p with is_closed := true } :: r)
          ("](xref:" ++ refid ++ ")")
      | c => c
    else
      add_content (self :: parent :: rest) ("](xref:" ++ refid ++ ")")
  | _ => add_content chain ("](xref:" ++ refid ++ ")")

/-- `ComputerOutput.enter`: record the span as not yet closed and emit the
leading backtick. -/
def computerOutputEnter (chain : List HNode) : List HNode :=
  match chain with
  | self :: rest => add_content ({ self with is_closed := false } :: rest) "`"
  | [] => []

/-- `ComputerOutput.leave`: emit the closing backtick unless a nested
cross-reference already closed the span. -/
def computerOutputLeave (chain : List HNode) : List HNode :=
  match chain with
  | self :: rest => if self.is_closed then self :: rest else add_content (self :: rest) "`"
  | [] => []

/-! ## `ProgramListing` (doxygen2docfx.py, lines 243–261) -/

/-- The synthetic marker doxygen places in front of code blocks whose
language it inferred to be C++. -/
def inferredCppMarker : String := " {c++}\n"

/-- The fenced block emitted by `ProgramListing.leave`, as a function of
the element's `filename` attribute (`None` when absent, read through
`get_filename`) and the buffered text. -/
def programListingEmitted (filename : Option String) (text : String) : String :=
  let st := if pyStarts text inferredCppMarker then
      (some "cpp", String.mk (text.data.drop inferredCppMarker.data.length))
    else (filename, text)
  let fn := if st.1.getD "" = "c++" then some "cpp" else st.1
  "\n```" ++ fn.getD "" ++ "\n" ++ st.2 ++ "```\n"

/-- `ProgramListing.leave` on the node's chain: the emitted block goes to
the parent's content delegation (`self.parent.add_content`), and the own
buffer is reset to `None`.  `none` models the crash on a node whose
buffer was never initialised (its `enter` always sets it to `''`). -/
def programListingLeave (chain : List HNode) : Option (List HNode) :=
  match chain with
  | self :: rest =>
    match self.text with
    | some t =>
      some ({ self with text := none } ::
        add_content rest (programListingEmitted self.filename t))
    | none => none
  | [] => none

/-! ## `Formula.leave` emission (doxygen2docfx.py, lines 333–345) -/

/-- `Formula.leave` on the node's chain: the accumulated content (the own
buffer, initialised to `''` by `enter`) is rewritten and emitted as a math
fence into the parent's delegation chain, and the own buffer is reset.
`none` models the crash on a missing buffer (`re.match` on `None`). -/
def formulaLeave (chain : List HNode) : Option (List HNode) :=
  match chain with
  | self :: rest =>
    match get_content (self :: rest) with
    | some content =>
      some ({ self with text := none } ::
        add_content rest ("\n```math\n" ++ formulaRewrite content ++ "\n```\n"))
    | none => none
  | [] => none

/-! ## The item mapping (Stage A)

Items are Python `OrderedDict`s keyed by uid in the handler's `items`
dict.  Keys that may be absent from the per-item dict are modelled as
`Option` fields; the corpus mapping is an association list updated in
place (first binding wins, matching unique dict keys). -/

/-- The optional `source` mapping written by `Location.enter`. -/
structure SourceInfo where
  path : String
  startLine : Int
  endLine : Option Int := none
deriving Repr, DecidableEq

/-- One documented entity, with `Option` marking dictionary keys that may
be absent.  `sigContent` is the `content` entry of the item's signature
mapping (the dict key spelled `s-y-n-t-a-x` in the source). -/
structure Item where
  uid : String := ""
  id : String := ""
  parent : Option String := none
  type : String := ""
  summary : String := ""
  name : Option String := none
  fullName : Option String := none
  brief : Option String := none
  description : Option String := none
  sigContent : Option String := none
  children : Option (List String) := none
  inheritance : Option (List String) := none
  derivedClasses : Option (List String) := none
  inheritedMembers : Option (List String) := none
  overrides : Option (List String) := none
  langs : Option (List String) := none
  source : Option SourceInfo := none
deriving Repr, DecidableEq

/-- The corpus-wide item mapping. -/
abbrev Items := List (String × Item)

/-- Dictionary lookup (`items[k]`, `k in items`). -/
def lookupItem (items : Items) (k : String) : Option Item :=
  List.lookup k items

/-- Dictionary write (`items[k] = v`): replace the binding in place, or
append a new one. -/
def setItem : Items → String → Item → Items
  | [], k, v => [(k, v)]
  | (k', v') :: rest, k, v =>
    if k' = k then (k, v) :: rest else (k', v') :: setItem rest k v

/-- Code-point lexicographic comparison of character lists — the order
Python uses to compare strings. -/
def charListLe : List Char → List Char → Bool
  | [], _ => true
  | _ :: _, [] => false
  | a :: as, b :: bs =>
    if a.toNat < b.toNat then true
    else if b.toNat < a.toNat then false
    else charListLe as bs

theorem charListLe_total : ∀ a b, charListLe a b = true ∨ charListLe b a = true := by
  intro a
  induction a with
  | nil => intro b; left; rfl
  | cons x xs ih =>
    intro b
    cases b with
    | nil => right; rfl
    | cons y ys =>
      simp only [charListLe]
      rcases Nat.lt_trichotomy x.toNat y.toNat with h | h | h
      · left; simp [h]
      · have h1 : ¬ x.toNat < y.toNat := by omega
        have h2 : ¬ y.toNat < x.toNat := by omega
        rcases ih ys with hh | hh
        · left; simp [h1, h2, hh]
        · right; simp [h1, h2, hh]
      · right; simp [h]

theorem charListLe_head_le {x y : Char} {xs ys : List Char}
    (h : charListLe (x :: xs) (y :: ys) = true) : x.toNat ≤ y.toNat := by
  by_cases h1 : x.toNat < y.toNat
  · omega
  · by_cases h2 : y.toNat < x.toNat
    · simp [charListLe, h1, h2] at h
    · omega

theorem charListLe_trans : ∀ a b c, charListLe a b = true → charListLe b c = true →
    charListLe a c = true := by
  intro a
  induction a with
  | nil => intro b c _ _; rfl
  | cons x xs ih =>
    intro b c hab hbc
    cases b with
    | nil => simp [charListLe] at hab
    | cons y ys =>
      cases c with
      | nil => simp [charListLe] at hbc
      | cons z zs =>
        have hxy := charListLe_head_le hab
        have hyz := charListLe_head_le hbc
        by_cases h1 : x.toNat < z.toNat
        · simp [charListLe, h1]
        · have nlt1 : ¬ x.toNat < y.toNat := by omega
          have nlt2 : ¬ y.toNat < x.toNat := by omega
          have nlt3 : ¬ y.toNat < z.toNat := by omega
          have nlt4 : ¬ z.toNat < y.toNat := by omega
          have nlt5 : ¬ z.toNat < x.toNat := by omega
          simp only [charListLe, nlt1, nlt2, if_false] at hab
          simp only [charListLe, nlt3, nlt4, if_false] at hbc
          simp only [charListLe, h1, nlt5, if_false]
          exact ih ys zs hab hbc

/-- The sort key order used for `derivedClasses` and `inheritedMembers`:
compare the normalized identifiers code-point lexicographically, as
Python's `sorted(..., key=id_sorting)` does. -/
def keyLe (a b : String) : Prop :=
  charListLe (id_sorting a).data (id_sorting b).data = true

instance : DecidableRel keyLe := fun a b =>
  inferInstanceAs (Decidable (_ = true))

instance : IsTotal String keyLe :=
  ⟨fun a b => charListLe_total (id_sorting a).data (id_sorting b).data⟩

instance : IsTrans String keyLe :=
  ⟨fun _ _ _ h1 h2 => charListLe_trans _ _ _ h1 h2⟩

/-- `sorted(set(xs), key=id_sorting)`: deduplicate, then sort by the
normalized-id key.  Python's `sorted` is stable over the unspecified
iteration order of the `set`, so the order among entries with equal keys
is unspecified in the source; any sort by the key models it. -/
def sortedDedupByKey (xs : List String) : List String :=
  xs.dedup.insertionSort keyLe

/-! ## Stage A item-graph operations

Each operation models one handler hook of doxygen2docfx.py, with the
handler's relevant XML attributes and ancestry-derived identifiers passed
as parameters (they are read off the live handler chain in the source).
A result of `none` models a Python exception (`KeyError` on a missing
dict key, `ValueError` from `int()`). -/

/-- `CompoundDef.enter` (lines 177–189): materialize a compound unless its
kind is `dir`; `language` is the optional `language` attribute. -/
def compoundDefEnter (items : Items) (id kind : String)
    (language : Option String) : Items :=
  if kind ≠ "dir" then
    let base : Item := { uid := id, id := id, type := translate kind, summary := "" }
    setItem items id
      (match language with
       | some lang => { base with langs := some [translate lang] }
       | none => base)
  else items

/-- `CompountName.characters` (lines 192–197): set `name` and `fullName`
on the parent compound when it is materialized. -/
def compoundNameChars (items : Items) (item_id content : String) : Items :=
  match lookupItem items item_id with
  | some it => setItem items item_id
      { it with name := some content, fullName := some content }
  | none => items

/-- `MemberDef.enter` (lines 220–231): materialize a member parented to
the second-level ancestor compound unless the kind is excluded. -/
def memberDefEnter (items : Items) (member_id parent_id kind : String) : Items :=
  if kind ≠ "friend" ∧ kind ≠ "type" ∧ kind ≠ "typedef" ∧ kind ≠ "variable" then
    setItem items member_id
      { uid := member_id, id := member_id, parent := some parent_id,
        type := translate kind, summary := "" }
  else items

/-- `Name.characters`, `listofallmembers` branch (lines 118–129):
`parent_id` is the id of the compound three levels up, `member_id` the
`refid` of the member reference.  The member id joins the compound's
`inheritedMembers` (sorted and deduplicated by the normalized-id key) only
when the compound is materialized and the id is not already one of its
`children`. -/
def nameLOAM (items : Items) (parent_id member_id : String) : Items :=
  match lookupItem items parent_id with
  | none => items
  | some it =>
    if it.children = none ∨ ¬ member_id ∈ (it.children.getD []) then
      let inherited := it.inheritedMembers.getD []
      setItem items parent_id
        { it with inheritedMembers := some (sortedDedupByKey (inherited ++ [member_id])) }
    else items

/-- `Name.characters`, child-registration branch (lines 130–145):
`parent_id` is the id of the third ancestor, `item_id` the parent
element's id, `content` the character data.  The writes happen in the
source's order on the shared mapping; a missing `parent_id` binding or a
missing `fullName`/`name` key raises (`none`). -/
def nameChild (items : Items) (parent_id item_id content : String) : Option Items := do
  let parent ← lookupItem items parent_id
  let items1 := setItem items parent_id
    { parent with children := some (parent.children.getD [] ++ [item_id]) }
  match lookupItem items1 item_id with
  | none => some items1
  | some it =>
    let items2 := setItem items1 item_id { it with name := some content }
    let p2 ← lookupItem items2 parent_id
    let pfn ← p2.fullName
    let it2 ← lookupItem items2 item_id
    let items3 := setItem items2 item_id
      { it2 with fullName := some (pfn ++ "::" ++ content) }
    let it3 ← lookupItem items3 item_id
    if it3.type = "function" then
      let p3 ← lookupItem items3 parent_id
      let pn ← p3.name
      let item_type := if content = stripQual pn then "constructor" else "method"
      some (setItem items3 item_id { it3 with type := translate item_type })
    else
      some items3

/-- `Definition.characters` / `ArgsString.characters` (lines 147–163):
append the stripped content to the signature text. -/
def signatureChars (items : Items) (item_id content : String) : Items :=
  match lookupItem items item_id with
  | some it => setItem items item_id
      { it with sigContent := some (it.sigContent.getD "" ++ pyStrip content) }
  | none => items

/-- `BaseCompoundRef.enter` (lines 200–206): with a `refid` attribute the
base uid joins `inheritance` (append, no dedup); without one nothing
happens.  The dict access is unguarded, so a missing item raises. -/
def baseCompoundRefEnter (items : Items) (item_id : String)
    (refid : Option String) : Option Items :=
  match refid with
  | none => some items
  | some r => do
    let it ← lookupItem items item_id
    some (setItem items item_id
      { it with inheritance := some (it.inheritance.getD [] ++ [r]) })

/-- `DerivedCompoundRef.enter` (lines 209–217): the derived uid joins
`derivedClasses`, sorted and deduplicated by the normalized-id key.  The
dict access is unguarded, so a missing item raises. -/
def derivedCompoundRefEnter (items : Items) (item_id refid : String) :
    Option Items := do
  let it ← lookupItem items item_id
  some (setItem items item_id
    { it with derivedClasses := some (sortedDedupByKey (it.derivedClasses.getD [] ++ [refid])) })

/-- `ReimplementedBy.enter` (lines 349–355): the overriding uid joins
`overrides` (append order, no dedup), guarded by item existence. -/
def reimplementedByEnter (items : Items) (item_id refid : String) : Items :=
  match lookupItem items item_id with
  | some it => setItem items item_id
      { it with overrides := some (it.overrides.getD [] ++ [refid]) }
  | none => items

/-- `BriefDescription.leave` (lines 269–278): store the stripped buffer as
`brief` and as the (fresh) `summary`. -/
def briefLeave (items : Items) (item_id text : String) : Items :=
  match lookupItem items item_id with
  | some it => setItem items item_id
      { it with brief := some (pyStrip text), summary := pyStrip text }
  | none => items

/-- `DetailedDescription.leave` (lines 281–292): store the stripped buffer
as `description` and extend `summary` by a blank line and it. -/
def detailedLeave (items : Items) (item_id text : String) : Items :=
  match lookupItem items item_id with
  | some it =>
      let newSummary := pyStrip (it.summary ++ "\n\n" ++ pyStrip text)
      setItem items item_id
        { it with description := some (pyStrip text), summary := newSummary }
  | none => items

/-- `Location.enter` (lines 314–326): with a `bodyfile` attribute record
the source location; `bodyend` is dropped when it is the `-1` sentinel.
`String.toInt?` failure models the `int()` exception; `bodystart` absent
while `bodyfile` is present also raises. -/
def locationEnter (items : Items) (item_id : String)
    (bodyfile bodystart bodyend : Option String) : Option Items :=
  match lookupItem items item_id, bodyfile with
  | some it, some bf => do
    let bs ← bodystart
    let start ← bs.toInt?
    let src : SourceInfo := { path := bf, startLine := start }
    let src ← match bodyend with
      | some be =>
        if be ≠ "-1" then do
          let e ← be.toInt?
          pure { src with endLine := some e }
        else pure src
      | none => pure src
    some (setItem items item_id { it with source := some src })
  | _, _ => some items

/-! ## Stage A operations as a closed step relation

Every mutation of the shared item mapping happens inside one of the
handler hooks modelled above (the remaining handlers only touch text
buffers).  `ItemOp` packages one hook invocation together with the
attribute/ancestry data it reads from the live handler chain. -/

inductive ItemOp where
  | compoundDef (id kind : String) (language : Option String)
  | compoundName (item_id content : String)
  | memberDef (member_id parent_id kind : String)
  | nameLOAM (parent_id member_id : String)
  | nameChild (parent_id item_id content : String)
  | signature (item_id content : String)
  | baseCompoundRef (item_id : String) (refid : Option String)
  | derivedCompoundRef (item_id refid : String)
  | reimplementedBy (item_id refid : String)
  | briefLeave (item_id text : String)
  | detailedLeave (item_id text : String)
  | location (item_id : String) (bodyfile bodystart bodyend : Option String)
deriving Repr, DecidableEq

/-- Apply one Stage A item operation; `none` models a raised exception. -/
def applyOp (items : Items) : ItemOp → Option Items
  | .compoundDef id kind language => some (compoundDefEnter items id kind language)
  | .compoundName item_id content => some (compoundNameChars items item_id content)
  | .memberDef member_id parent_id kind =>
      some (memberDefEnter items member_id parent_id kind)
  | .nameLOAM parent_id member_id => some (nameLOAM items parent_id member_id)
  | .nameChild parent_id item_id content => nameChild items parent_id item_id content
  | .signature item_id content => some (signatureChars items item_id content)
  | .baseCompoundRef item_id refid => baseCompoundRefEnter items item_id refid
  | .derivedCompoundRef item_id refid => derivedCompoundRefEnter items item_id refid
  | .reimplementedBy item_id refid => some (reimplementedByEnter items item_id refid)
  | .briefLeave item_id text => some (briefLeave items item_id text)
  | .detailedLeave item_id text => some (detailedLeave items item_id text)
  | .location item_id bodyfile bodystart bodyend =>
      locationEnter items item_id bodyfile bodystart bodyend

/-- Run a sequence of Stage A item operations from a given mapping,
aborting at the first exception. -/
def runOps : Items → List ItemOp → Option Items
  | items, [] => some items
  | items, op :: rest =>
    match applyOp items op with
    | some items' => runOps items' rest
    | none => none

/-! ## Stage B — `generate_xrefmap.py`

`GlobalReference` is one entry of the consolidated map; the rewrite pass
receives the uid-keyed map (a dict, modelled as an association list with
unique keys) and each record's item list. -/

structure GlobalReference where
  uid : String
  name : String
  href : String
  fullName : String
deriving Repr, DecidableEq

/-- The uid-keyed global reference map built by pass 1. -/
abbrev XrefMap := List (String × GlobalReference)

/-- `uid in xrefmap`. -/
def inXref (m : XrefMap) (uid : String) : Bool :=
  (List.lookup uid m).isSome

/-- `referenced.add(uid)` on the per-record `set()`, modelled as an
insertion-ordered duplicate-free list. -/
def addReferenced (referenced : List String) (uid : String) : List String :=
  if uid ∈ referenced then referenced else referenced ++ [uid]

/-- The body of the per-item loop of pass 2 (generate_xrefmap.py, lines
67–82): prune or mark the `parent`, filter `children` and
`inheritedMembers` to uids present in the map, and mark every retained
uid. -/
def processItemB (m : XrefMap) (it : Item) (referenced : List String) :
    Item × List String :=
  let st :=
    match it.parent with
    | some p =>
      if inXref m p then (it, addReferenced referenced p)
      else ({ it with parent := none }, referenced)
    | none => (it, referenced)
  let st :=
    match st.1.children with
    | some cs =>
      let cs := cs.filter (fun c => inXref m c)
      ({ st.1 with children := some cs }, cs.foldl addReferenced st.2)
    | none => st
  match st.1.inheritedMembers with
  | some cs =>
    let cs := cs.filter (fun c => inXref m c)
    ({ st.1 with inheritedMembers := some cs }, cs.foldl addReferenced st.2)
  | none => st

/-- The item loop of pass 2 over one record's `items`, threading the
`referenced` set. -/
def processItemsB (m : XrefMap) : List Item → List String → List Item × List String
  | [], referenced => ([], referenced)
  | it :: rest, referenced =>
    let st := processItemB m it referenced
    let fin := processItemsB m rest st.2
    (st.1 :: fin.1, fin.2)

/-- Pass 2 on one record (generate_xrefmap.py, lines 65–84): rewrite the
items and attach the `references` list, one `GlobalReference` per
referenced uid. -/
def processRecordB (m : XrefMap) (items : List Item) :
    List Item × List GlobalReference :=
  let st := processItemsB m items []
  (st.1, st.2.filterMap (fun u => List.lookup u m))

/-- The uids a single item marks as referenced: a map-resident `parent`
and every map-resident entry of `children` and `inheritedMembers`. -/
def itemMarks (m : XrefMap) (it : Item) (u : String) : Prop :=
  inXref m u = true ∧
    (it.parent = some u ∨
     (∃ cs, it.children = some cs ∧ u ∈ cs) ∨
     (∃ cs, it.inheritedMembers = some cs ∧ u ∈ cs))

/-! # Theorems -/

/-! ## Content delegation (claim C1) -/

theorem add_content_of_all_none (chain : List HNode) (c : String)
    (h : ∀ n ∈ chain, n.text = none) : add_content chain c = chain := by
  induction chain with
  | nil => rfl
  | cons n rest ih =>
    have hn : n.text = none := h n (by simp)
    simp only [add_content, hn, ih (fun x hx => h x (by simp [hx]))]

theorem add_content_owner (pre rest : List HNode) (owner : HNode)
    (t c : String) (hpre : ∀ n ∈ pre, n.text = none)
    (howner : owner.text = some t) :
    add_content (pre ++ owner :: rest) c =
      pre ++ { owner with text := some (t ++ c) } :: rest := by
  induction pre with
  | nil => simp only [List.nil_append, add_content, howner]
  | cons n ns ih =>
    have hn : n.text = none := hpre n (by simp)
    simp [List.cons_append, add_content, hn,
      ih (fun x hx => hpre x (by simp [hx]))]

/-- C1: appending content at a handler node appends in place to the
nearest owned buffer on the ancestor chain — the node's own buffer when it
owns one, otherwise the parent's chain is consulted — and when no node on
the chain owns a buffer the content is discarded (the chain is unchanged). -/
theorem c1_add_content (pre rest chain : List HNode) (owner : HNode)
    (t c : String) (hpre : ∀ n ∈ pre, n.text = none)
    (howner : owner.text = some t) (hnone : ∀ n ∈ chain, n.text = none) :
    add_content (pre ++ owner :: rest) c =
      pre ++ { owner with text := some (t ++ c) } :: rest ∧
    add_content chain c = chain :=
  ⟨add_content_owner pre rest owner t c hpre howner,
   add_content_of_all_none chain c hnone⟩

theorem c1_add_content_witness :
    (∀ n ∈ [({ tag := "ref" } : HNode)], n.text = none) ∧
    (({ tag := "para", text := some "ab" } : HNode)).text = some "ab" ∧
    (∀ n ∈ [({ tag := "x" } : HNode), { tag := "y" }], n.text = none) ∧
    add_content [{ tag := "ref" }, { tag := "para", text := some "ab" }] "cd" =
      [{ tag := "ref" }, { tag := "para", text := some "abcd" }] ∧
    add_content [({ tag := "x" } : HNode), { tag := "y" }] "cd" =
      [{ tag := "x" }, { tag := "y" }] := by
  refine ⟨by decide, by decide, by decide, ?_⟩
  have h := c1_add_content [{ tag := "ref" }] []
    [({ tag := "x" } : HNode), { tag := "y" }] { tag := "para", text := some "ab" }
    "ab" "cd" (by decide) (by decide) (by decide)
  simpa using h

/-! ## Cross-reference links inside inline-code spans (claim C5) -/

theorem insertOpenBracket_owner (pre rest : List HNode) (owner : HNode)
    (t₀ : String) (lc : Char) (hpre : ∀ n ∈ pre, n.text = none)
    (howner : owner.text = some (t₀ ++ String.mk [lc])) :
    insertOpenBracket (pre ++ owner :: rest) =
      pre ++ { owner with text := some (t₀ ++ "[" ++ String.mk [lc]) } :: rest := by
  induction pre with
  | nil =>
    simp only [List.nil_append, insertOpenBracket, howner]
    have hdata : (t₀ ++ String.mk [lc]).data = t₀.data ++ [lc] := by
      simp [String.data_append]
    have hlen : (t₀ ++ String.mk [lc]).data.length - 1 = t₀.data.length := by
      simp [hdata]
    rw [hlen, hdata]
    have htake : (t₀.data ++ [lc]).take t₀.data.length = t₀.data :=
      List.take_left t₀.data [lc]
    have hdrop : (t₀.data ++ [lc]).drop t₀.data.length = [lc] :=
      List.drop_left t₀.data [lc]
    rw [htake, hdrop]
  | cons n ns ih =>
    have hn : n.text = none := hpre n (by simp)
    simp [insertOpenBracket, hn, ih (fun x hx => hpre x (by simp [hx]))]

/-- C5 counterexample: with the nearest owned buffer holding the character
x followed by the code span's leading backtick, `Ref.enter` produces the
buffer x, open-bracket, backtick — the opening bracket lands immediately
*before* the leading backtick, not immediately after it (which would give
x, backtick, open-bracket). -/
theorem c5_counterexample :
    refEnter [{ tag := "ref" }, { tag := "computeroutput" },
        { tag := "para", text := some "x`" }] =
      [{ tag := "ref" }, { tag := "computeroutput" },
        { tag := "para", text := some "x[`" }] ∧
    some ("x[`" : String) ≠ some ("x`[" : String) := by
  constructor
  · decide
  · decide

/-- C5 (amended): for a cross-reference link nested in an inline-code
span, `Ref.enter` inserts the opening bracket immediately *before* the
final character of the nearest ancestor's owned buffer (found by walking
up through ancestors whose buffer is unset) — the code span's leading
backtick when that backtick is the buffer's last character; on close a
closing backtick is appended before the `](xref:<id>)` suffix and the code
span is marked self-closed, so its own leave hook does not emit a second
closing backtick. -/
theorem c5_ref_in_code_span (ref co owner : HNode) (mids rest : List HNode)
    (t₀ t : String) (lc : Char) (refid : String)
    (htag : co.tag = "computeroutput") (hco : co.text = none)
    (href : ref.text = none) (hmids : ∀ n ∈ mids, n.text = none) :
    (owner.text = some (t₀ ++ String.mk [lc]) →
      refEnter (ref :: co :: mids ++ owner :: rest) =
        ref :: co :: mids ++
          { owner with text := some (t₀ ++ "[" ++ String.mk [lc]) } :: rest) ∧
    (owner.text = some t →
      refLeave (ref :: co :: mids ++ owner :: rest) refid =
        ref :: { co with is_closed := true } :: mids ++
          { owner with text := some (t ++ "`" ++ ("](xref:" ++ refid ++ ")")) } :: rest) ∧
    computerOutputLeave ({ co with is_closed := true } :: mids ++ owner :: rest) =
      { co with is_closed := true } :: mids ++ owner :: rest := by
  obtain ⟨ctag, ctext, cclosed, cfn⟩ := co
  dsimp only at htag hco
  subst htag; subst hco
  refine ⟨fun howner => ?_, fun howner => ?_, ?_⟩
  · show refEnter (ref :: _ :: (mids ++ owner :: rest)) = _
    have hins : insertOpenBracket ((⟨"computeroutput", none, cclosed, cfn⟩ : HNode) ::
        (mids ++ owner :: rest)) =
        (⟨"computeroutput", none, cclosed, cfn⟩ : HNode) ::
          (mids ++ { owner with text := some (t₀ ++ "[" ++ String.mk [lc]) } :: rest) := by
      have := insertOpenBracket_owner ((⟨"computeroutput", none, cclosed, cfn⟩ : HNode)
          :: mids) rest owner t₀ lc
        (by intro n hn; rcases List.mem_cons.mp hn with h | h
            · subst h; rfl
            · exact hmids n h) howner
      simpa using this
    simp [refEnter, hins]
  · show refLeave (ref :: _ :: (mids ++ owner :: rest)) refid = _
    have hchain : add_content (ref :: (⟨"computeroutput", none, cclosed, cfn⟩ : HNode) ::
        (mids ++ owner :: rest)) "`" =
        ref :: (⟨"computeroutput", none, cclosed, cfn⟩ : HNode) ::
          (mids ++ { owner with text := some (t ++ "`") } :: rest) := by
      have := add_content_owner (ref :: (⟨"computeroutput", none, cclosed, cfn⟩ : HNode)
          :: mids) rest owner t "`"
        (by intro n hn
            rcases List.mem_cons.mp hn with h | hn
            · exact h ▸ href
            rcases List.mem_cons.mp hn with h | hn
            · subst h; rfl
            · exact hmids n hn) howner
      simpa using this
    have hchain2 : add_content (ref :: (⟨"computeroutput", none, true, cfn⟩ : HNode) ::
        (mids ++ { owner with text := some (t ++ "`") } :: rest))
        ("](xref:" ++ refid ++ ")") =
        ref :: (⟨"computeroutput", none, true, cfn⟩ : HNode) ::
          (mids ++ { owner with text := some (t ++ "`" ++ ("](xref:" ++ refid ++ ")")) } :: rest) := by
      have := add_content_owner (ref :: (⟨"computeroutput", none, true, cfn⟩ : HNode)
          :: mids) rest
        { owner with text := some (t ++ "`") } (t ++ "`") ("](xref:" ++ refid ++ ")")
        (by intro n hn
            rcases List.mem_cons.mp hn with h | hn
            · exact h ▸ href
            rcases List.mem_cons.mp hn with h | hn
            · subst h; rfl
            · exact hmids n hn) rfl
      simpa using this
    simp [refLeave, hchain, hchain2]
  · show computerOutputLeave (_ :: (mids ++ owner :: rest)) = _
    simp [computerOutputLeave]

theorem c5_ref_in_code_span_witness :
    (({ tag := "computeroutput" } : HNode)).tag = "computeroutput" ∧
    refEnter [{ tag := "ref" }, { tag := "computeroutput" },
        { tag := "para", text := some ("para " ++ String.mk ['`']) }] =
      [{ tag := "ref" }, { tag := "computeroutput" },
        { tag := "para", text := some ("para " ++ "[" ++ String.mk ['`']) }] ∧
    refLeave [{ tag := "ref" }, { tag := "computeroutput" },
        { tag := "para", text := some "para [`Foo" }] "classFoo" =
      [{ tag := "ref" }, { tag := "computeroutput", is_closed := true },
        { tag := "para", text := some ("para [`Foo" ++ "`](xref:" ++ "classFoo" ++ ")") }] := by
  have h := c5_ref_in_code_span { tag := "ref" } { tag := "computeroutput" }
    { tag := "para", text := some ("para " ++ String.mk ['`']) } [] [] "para "
    "unused" '`' "classFoo" rfl rfl rfl (by intro n hn; cases hn)
  have h' := c5_ref_in_code_span { tag := "ref" } { tag := "computeroutput" }
    { tag := "para", text := some "para [`Foo" } [] [] "unused" "para [`Foo" '`'
    "classFoo" rfl rfl rfl (by intro n hn; cases hn)
  refine ⟨rfl, ?_, ?_⟩
  · have h1 := h.1 rfl
    simpa using h1
  · have h2 := h'.2.1 rfl
    simpa using h2

/-! ## Code-block emission (claim C8) -/

/-- C8: on closing a code block, when the buffered text begins with the
inferred-C++ marker line the emitted fence carries the canonical `cpp`
language tag and the marker line (7 characters) is stripped from the body;
otherwise a declared language literal `c++` is normalized to `cpp`, and
any other declared language (or none) is used as is; the emitted form —
newline, opening fence with the language, the text, closing fence — is
appended to the parent's content-delegation chain and the block's own
buffer is reset. -/
theorem c8_program_listing (self : HNode) (chain : List HNode) (t : String)
    (htext : self.text = some t) :
    (pyStarts t inferredCppMarker = true →
      programListingLeave (self :: chain) =
        some ({ self with text := none } ::
          add_content chain ("\n```cpp\n" ++ String.mk (t.data.drop 7) ++ "```\n"))) ∧
    (pyStarts t inferredCppMarker = false → self.filename = some "c++" →
      programListingLeave (self :: chain) =
        some ({ self with text := none } ::
          add_content chain ("\n```cpp\n" ++ t ++ "```\n"))) ∧
    (pyStarts t inferredCppMarker = false → self.filename.getD "" ≠ "c++" →
      programListingLeave (self :: chain) =
        some ({ self with text := none } ::
          add_content chain ("\n```" ++ self.filename.getD "" ++ "\n" ++ t ++ "```\n"))) := by
  obtain ⟨stag, stext, sclosed, sfn⟩ := self
  dsimp only at htext
  subst htext
  have h1 : ("\n```" : String) ++ "cpp" ++ "\n" = "\n```cpp\n" := rfl
  have h7 : inferredCppMarker.data.length = 7 := rfl
  refine ⟨fun hm => ?_, fun hm hf => ?_, fun hm hf => ?_⟩
  · simp [programListingLeave, programListingEmitted, hm, h1, h7]
  · subst hf
    simp [programListingLeave, programListingEmitted, hm, h1]
  · simp only [Option.getD] at hf
    simp [programListingLeave, programListingEmitted, hm]
    cases sfn with
    | none =>
      simp [Option.getD]
    | some fn =>
      have hfn : fn ≠ "c++" := by simpa using hf
      simp [Option.getD, hfn]

theorem c8_program_listing_witness :
    pyStarts " {c++}\nint x;\n" inferredCppMarker = true ∧
    pyStarts "y\n" inferredCppMarker = false ∧
    programListingLeave [{ tag := "programlisting", text := some " {c++}\nint x;\n" }] =
      some [{ tag := "programlisting" }] ∧
    programListingLeave [(⟨"programlisting", some "y\n", false, some "c++"⟩ : HNode),
        { tag := "para", text := some "" }] =
      some [(⟨"programlisting", none, false, some "c++"⟩ : HNode),
        { tag := "para", text := some ("" ++ ("\n```cpp\n" ++ "y\n" ++ "```\n")) }] ∧
    programListingLeave [(⟨"programlisting", some "z", false, some "py"⟩ : HNode),
        { tag := "para", text := some "" }] =
      some [(⟨"programlisting", none, false, some "py"⟩ : HNode),
        { tag := "para", text := some ("" ++ ("\n```" ++ "py" ++ "\n" ++ "z" ++ "```\n")) }] := by
  have ha := (c8_program_listing { tag := "programlisting", text := some " {c++}\nint x;\n" }
    [] " {c++}\nint x;\n" rfl).1 (by decide)
  have hb := (c8_program_listing ⟨"programlisting", some "y\n", false, some "c++"⟩
    [{ tag := "para", text := some "" }] "y\n" rfl).2.1
    (by decide) rfl
  have hc := (c8_program_listing ⟨"programlisting", some "z", false, some "py"⟩
    [{ tag := "para", text := some "" }] "z" rfl).2.2
    (by decide) (by decide)
  refine ⟨by decide, by decide, ?_, ?_, ?_⟩
  · simpa using ha
  · simpa [add_content] using hb
  · simpa [add_content] using hc

/-! ## Formula rewriting (claim C9) -/

/-- C9: closing a formula element applies exactly one of two
substitutions to the accumulated inner text, first match wins — a
display-math wrapper is stripped to its inner content, else an inline-math
wrapper is stripped to its inner content, else the text passes through
unchanged — and the result is emitted as a math-fenced block into the
parent's chain; in particular the display input yields exactly `x^2`, and
so does the inline input. -/
theorem c9_formula (self : HNode) (chain : List HNode) (c : String)
    (htext : self.text = some c) :
    formulaRewrite "\\[x^2\\]" = "x^2" ∧
    formulaRewrite "$x^2$" = "x^2" ∧
    (displaySubRes c = none → inlineSubRes c = none → formulaRewrite c = c) ∧
    (∀ r, displaySubRes c = some r → formulaRewrite c = r) ∧
    (∀ r, displaySubRes c = none → inlineSubRes c = some r → formulaRewrite c = r) ∧
    formulaLeave (self :: chain) =
      some ({ self with text := none } ::
        add_content chain ("\n```math\n" ++ formulaRewrite c ++ "\n```\n")) := by
  obtain ⟨stag, stext, sclosed, sfn⟩ := self
  dsimp only at htext
  subst htext
  refine ⟨by decide, by decide, fun h1 h2 => ?_, fun r h1 => ?_, fun r h1 h2 => ?_, ?_⟩
  · simp [formulaRewrite, h1, h2]
  · simp [formulaRewrite, h1]
  · simp [formulaRewrite, h1, h2]
  · simp [formulaLeave, get_content]

theorem c9_formula_witness :
    (({ tag := "formula", text := some "$a+b$" } : HNode)).text = some "$a+b$" ∧
    displaySubRes "$a+b$" = none ∧ inlineSubRes "$a+b$" = some "a+b" ∧
    formulaRewrite "\\[x^2\\]" = "x^2" ∧ formulaRewrite "$x^2$" = "x^2" ∧
    formulaRewrite "$a+b$" = "a+b" ∧
    formulaLeave [({ tag := "formula", text := some "$a+b$" } : HNode),
        { tag := "para", text := some "p" }] =
      some [{ tag := "formula" },
        { tag := "para", text := some ("p" ++ ("\n```math\n" ++ "a+b" ++ "\n```\n")) }] := by
  have h := c9_formula { tag := "formula", text := some "$a+b$" }
    [{ tag := "para", text := some "p" }] "$a+b$" rfl
  refine ⟨rfl, by decide, by decide, h.1, h.2.1, ?_, ?_⟩
  · exact h.2.2.2.2.1 "a+b" (by decide) (by decide)
  · have h6 := h.2.2.2.2.2
    have hr : formulaRewrite "$a+b$" = "a+b" := h.2.2.2.2.1 "a+b" (by decide) (by decide)
    rw [hr] at h6
    simpa [add_content] using h6

/-! ## Path translation (claim C6) -/

/-- C6 counterexample: `translate_path` is not idempotent — it
unconditionally prepends the `api/` root segment, so a second application
prepends a second one. -/
theorem c6_counterexample :
    translate_path (translate_path "doxygen/xml/classFooBar.xml") ≠
      translate_path "doxygen/xml/classFooBar.xml" := by decide

/-- C6 (amended): path translation is a pure (deterministic) function of
the compound's source path, but it is not idempotent: a second application
prepends another `api/` root segment, as on the representative extractor
path.  The two known suppressed output paths (the std::optional
specialization artifacts) never produce an output file: no input path
makes the single-record branch of `convert` return either of them. -/
theorem c6_translate_path (p : String) :
    (∀ q : String, p = q → translate_path p = translate_path q) ∧
    (convertOutputFile p ≠ some "api/std/optional.yml" ∧
     convertOutputFile p ≠ some "api/ValueSetter/3_01std_optional_3_01T_01_4_01_4.yml") ∧
    translate_path "doxygen/xml/classFooBar.xml" = "api/foo-bar.yml" ∧
    translate_path (translate_path "doxygen/xml/classFooBar.xml") =
      "api/" ++ translate_path "doxygen/xml/classFooBar.xml" := by
  refine ⟨fun q hq => hq ▸ rfl, ⟨?_, ?_⟩, by decide, by decide⟩
  · intro h
    unfold convertOutputFile at h
    split at h
    · cases h
    · split at h
      · cases h
      · split at h
        · cases h
        · rename_i hcond
          injection h with h
          exact hcond (Or.inl h)
  · intro h
    unfold convertOutputFile at h
    split at h
    · cases h
    · split at h
      · cases h
      · split at h
        · cases h
        · rename_i hcond
          injection h with h
          exact hcond (Or.inr h)

theorem c6_translate_path_witness :
    ("doxygen/xml/classFooBar.xml" : String) = "doxygen/xml/classFooBar.xml" ∧
    convertOutputFile "doxygen/xml/classFooBar.xml" ≠ some "api/std/optional.yml" ∧
    translate_path "doxygen/xml/classFooBar.xml" = "api/foo-bar.yml" := by
  have h := c6_translate_path "doxygen/xml/classFooBar.xml"
  exact ⟨rfl, h.2.1.1, h.2.2.1⟩

/-! ## Dictionary lemmas -/

theorem lookup_setItem_self (items : Items) (k : String) (v : Item) :
    lookupItem (setItem items k v) k = some v := by
  induction items with
  | nil => simp [setItem, lookupItem, List.lookup]
  | cons p rest ih =>
    obtain ⟨pk, pv⟩ := p
    by_cases h : pk = k
    · subst h
      simp [setItem, lookupItem, List.lookup]
    · have hb : (k == pk) = false := beq_eq_false_iff_ne.mpr (fun hh => h hh.symm)
      simp only [setItem, if_neg h, lookupItem, List.lookup, hb]
      exact ih

theorem lookup_setItem_ne (items : Items) (k k' : String) (v : Item)
    (h : k ≠ k') : lookupItem (setItem items k v) k' = lookupItem items k' := by
  have hb : (k' == k) = false := beq_eq_false_iff_ne.mpr (fun hh => h hh.symm)
  induction items with
  | nil => simp [setItem, lookupItem, List.lookup, hb]
  | cons p rest ih =>
    obtain ⟨pk, pv⟩ := p
    by_cases hp : pk = k
    · subst hp
      simp [setItem, lookupItem, List.lookup, hb]
    · simp only [setItem, if_neg hp, lookupItem, List.lookup]
      by_cases hk : k' = pk
      · subst hk
        simp
      · have hb2 : (k' == pk) = false := beq_eq_false_iff_ne.mpr hk
        simp only [hb2]
        exact ih

/-! ## Member reclassification on the name event (claim C7) -/

/-- C7 counterexample: a member of kind `enum` — a kind *not* in the
excluded set {friend, type, typedef, variable} — is materialized with type
`enum` and keeps it through its name event: it is reclassified neither to
`method` nor to `constructor` (only members whose current type is
`function` are reclassified). -/
theorem c7_counterexample :
    (runOps [] [.compoundDef "classP" "class" none, .compoundName "classP" "P",
        .memberDef "m1" "classP" "enum",
        .nameChild "classP" "m1" "getValue"]).bind
      (fun items => (lookupItem items "m1").map Item.type) = some "enum" ∧
    some ("enum" : String) ≠ some "method" ∧
    some ("enum" : String) ≠ some "constructor" := by
  refine ⟨by decide, by decide, by decide⟩

/-- C7 (amended): when a name event is processed for a materialized member
item (distinct from its enclosing compound, which must expose a
`fullName`), the member's type is reclassified only when it currently is
`function` (the translated kind of a `function` member): it becomes
`constructor` when the content equals the enclosing type's simple name
(the parent name with any `::`-qualified prefix removed) and `method`
otherwise; a member of any other type keeps its type unchanged. -/
theorem c7_reclassify (items : Items) (parent_id item_id content : String)
    (parent it : Item) (pfn : String) (hne : parent_id ≠ item_id)
    (hp : lookupItem items parent_id = some parent)
    (hfn : parent.fullName = some pfn)
    (hit : lookupItem items item_id = some it) :
    (it.type = "function" → ∀ pn, parent.name = some pn →
      ∃ items', nameChild items parent_id item_id content = some items' ∧
        (lookupItem items' item_id).map Item.type =
          some (if content = stripQual pn then "constructor" else "method")) ∧
    (it.type ≠ "function" →
      ∃ items', nameChild items parent_id item_id content = some items' ∧
        (lookupItem items' item_id).map Item.type = some it.type) := by
  have hne' : item_id ≠ parent_id := fun h => hne h.symm
  have lne1 : ∀ (its : Items) v,
      lookupItem (setItem its parent_id v) item_id = lookupItem its item_id :=
    fun its v => lookup_setItem_ne its parent_id item_id v hne
  have lne2 : ∀ (its : Items) v,
      lookupItem (setItem its item_id v) parent_id = lookupItem its parent_id :=
    fun its v => lookup_setItem_ne its item_id parent_id v hne'
  constructor
  · intro htype pn hpn
    by_cases hc : content = stripQual pn
    · refine ⟨setItem (setItem (setItem (setItem items parent_id
          { parent with children := some (parent.children.getD [] ++ [item_id]) })
          item_id { it with name := some content })
          item_id { it with name := some content, fullName := some (pfn ++ "::" ++ content) })
          item_id { it with name := some content, fullName := some (pfn ++ "::" ++ content),
                            type := "constructor" }, ?_, ?_⟩
      · simp [nameChild, hp, lne1, lne2, lookup_setItem_self, hit, hfn, hpn, htype,
          hc, translate]
      · simp [lookup_setItem_self, hc]
    · refine ⟨setItem (setItem (setItem (setItem items parent_id
          { parent with children := some (parent.children.getD [] ++ [item_id]) })
          item_id { it with name := some content })
          item_id { it with name := some content, fullName := some (pfn ++ "::" ++ content) })
          item_id { it with name := some content, fullName := some (pfn ++ "::" ++ content),
                            type := "method" }, ?_, ?_⟩
      · simp [nameChild, hp, lne1, lne2, lookup_setItem_self, hit, hfn, hpn, htype,
          hc, translate]
      · simp [lookup_setItem_self, hc]
  · intro htype
    refine ⟨setItem (setItem (setItem items parent_id
        { parent with children := some (parent.children.getD [] ++ [item_id]) })
        item_id { it with name := some content })
        item_id { it with name := some content, fullName := some (pfn ++ "::" ++ content) },
        ?_, ?_⟩
    · simp [nameChild, hp, lne1, lne2, lookup_setItem_self, hit, hfn, if_neg htype]
    · simp [lookup_setItem_self]

/-- Example compound for exercising the name-event reclassification. -/
def exCompoundA : Item :=
  { uid := "nsA", id := "nsA", type := "namespace",
    name := some "A", fullName := some "A" }

/-- Example `function`-kind member of `exCompoundA`. -/
def exMemberF1 : Item :=
  { uid := "f1", id := "f1", parent := some "nsA", type := "function" }

theorem c7_reclassify_witness :
    ("nsA" : String) ≠ "f1" ∧
    lookupItem [("nsA", exCompoundA), ("f1", exMemberF1)] "nsA" = some exCompoundA ∧
    exCompoundA.fullName = some "A" ∧ exMemberF1.type = "function" ∧
    (∃ items', nameChild [("nsA", exCompoundA), ("f1", exMemberF1)]
        "nsA" "f1" "A" = some items' ∧
      (lookupItem items' "f1").map Item.type =
        some (if "A" = stripQual "A" then "constructor" else "method")) := by
  have h := c7_reclassify [("nsA", exCompoundA), ("f1", exMemberF1)]
    "nsA" "f1" "A" exCompoundA exMemberF1 "A"
    (by decide) (by decide) (by decide) (by decide)
  exact ⟨by decide, by decide, by decide, by decide, h.1 (by decide) "A" (by decide)⟩

/-! ## Membership lemmas for the item mapping and the sorted insert -/

theorem mem_setItem (items : Items) (k : String) (v : Item) :
    ∀ p ∈ setItem items k v, p = (k, v) ∨ p ∈ items := by
  induction items with
  | nil => intro p hp; simp [setItem] at hp; left; exact hp
  | cons q rest ih =>
    obtain ⟨qk, qv⟩ := q
    intro p hp
    by_cases h : qk = k
    · subst h
      simp only [setItem, if_pos rfl] at hp
      rcases List.mem_cons.mp hp with h | h
      · left; exact h
      · right; exact List.mem_cons_of_mem _ h
    · simp only [setItem, if_neg h] at hp
      rcases List.mem_cons.mp hp with h | h
      · right; exact h ▸ List.mem_cons_self _ _
      · rcases ih p h with h' | h'
        · left; exact h'
        · right; exact List.mem_cons_of_mem _ h'

theorem lookupItem_mem (items : Items) (k : String) (v : Item)
    (h : lookupItem items k = some v) : (k, v) ∈ items := by
  induction items with
  | nil => simp [lookupItem, List.lookup] at h
  | cons q rest ih =>
    obtain ⟨qk, qv⟩ := q
    by_cases hk : k = qk
    · subst hk
      simp [lookupItem, List.lookup] at h
      simp [h]
    · have hb : (k == qk) = false := beq_eq_false_iff_ne.mpr hk
      simp only [lookupItem, List.lookup, hb] at h
      exact List.mem_cons_of_mem _ (ih h)

theorem mem_sortedDedupByKey (xs : List String) (a : String) :
    a ∈ sortedDedupByKey xs ↔ a ∈ xs := by
  unfold sortedDedupByKey
  rw [(List.perm_insertionSort keyLe xs.dedup).mem_iff]
  exact List.mem_dedup

theorem sortedDedupByKey_sorted_nodup (xs : List String) :
    (sortedDedupByKey xs).Pairwise keyLe ∧ (sortedDedupByKey xs).Nodup := by
  constructor
  · exact List.sorted_insertionSort keyLe xs.dedup
  · exact ((List.perm_insertionSort keyLe xs.dedup).nodup_iff).mpr xs.nodup_dedup

/-! ## Inherited-member registration (claim C10) -/

/-- C10: on a name event in a list-of-all-members context the referenced
member id is appended to the owning compound's `inheritedMembers` only
when the owning compound exists in the item mapping and the id is not
already listed in that compound's `children`; when the compound is missing
or the id is already a child the mapping is unchanged, so the operation
never adds a uid that is simultaneously a registered child. -/
theorem c10_name_loam (items : Items) (parent_id member_id : String) :
    (lookupItem items parent_id = none → nameLOAM items parent_id member_id = items) ∧
    (∀ it, lookupItem items parent_id = some it →
      member_id ∈ it.children.getD [] → nameLOAM items parent_id member_id = items) ∧
    (∀ it, lookupItem items parent_id = some it →
      member_id ∉ it.children.getD [] →
      ∃ it', lookupItem (nameLOAM items parent_id member_id) parent_id = some it' ∧
        it'.children = it.children ∧
        member_id ∈ it'.inheritedMembers.getD [] ∧
        member_id ∉ it'.children.getD []) := by
  refine ⟨fun h => ?_, fun it hit hmem => ?_, fun it hit hmem => ?_⟩
  · simp [nameLOAM, h]
  · have hcond : ¬ (it.children = none ∨ ¬ member_id ∈ it.children.getD []) := by
      intro hc
      rcases hc with hc | hc
      · rw [hc] at hmem; simp at hmem
      · exact hc hmem
    simp [nameLOAM, hit, hcond]
  · have hcond : it.children = none ∨ ¬ member_id ∈ it.children.getD [] := Or.inr hmem
    refine ⟨{ it with inheritedMembers := some (sortedDedupByKey (it.inheritedMembers.getD [] ++ [member_id])) }, ?_, rfl, ?_, hmem⟩
    · simp only [nameLOAM, hit]
      rw [if_pos hcond]
      exact lookup_setItem_self items parent_id _
    · simp only [Option.getD_some]
      exact (mem_sortedDedupByKey _ _).mpr (by simp)

theorem c10_name_loam_witness :
    lookupItem [("classX", exCompoundA)] "nsA" = none ∧
    nameLOAM [("classX", exCompoundA)] "nsA" "m" = [("classX", exCompoundA)] ∧
    lookupItem [("nsA", exCompoundA)] "nsA" = some exCompoundA ∧
    ("m" : String) ∉ exCompoundA.children.getD [] ∧
    (∃ it', lookupItem (nameLOAM [("nsA", exCompoundA)] "nsA" "m") "nsA" = some it' ∧
      it'.children = exCompoundA.children ∧
      ("m" : String) ∈ it'.inheritedMembers.getD [] ∧
      ("m" : String) ∉ it'.children.getD []) := by
  have h1 := (c10_name_loam [("classX", exCompoundA)] "nsA" "m").1 (by decide)
  have h3 := (c10_name_loam [("nsA", exCompoundA)] "nsA" "m").2.2 exCompoundA
    (by decide) (by decide)
  exact ⟨by decide, h1, by decide, by decide, h3⟩

/-! ## Sortedness/dedup invariant (claim C4) -/

/-- An optional uid list is, when present, sorted by the normalized-id
key and duplicate-free. -/
def sortedNodupKey (o : Option (List String)) : Prop :=
  ∀ l, o = some l → l.Pairwise keyLe ∧ l.Nodup

/-- Every item's `derivedClasses` and `inheritedMembers` lists satisfy
`sortedNodupKey`. -/
def SortInv (items : Items) : Prop :=
  ∀ p ∈ items, sortedNodupKey p.2.derivedClasses ∧ sortedNodupKey p.2.inheritedMembers

theorem sortInv_nil : SortInv [] := by
  intro p hp; cases hp

theorem sortInv_setItem (items : Items) (k : String) (v : Item)
    (hinv : SortInv items)
    (hv : sortedNodupKey v.derivedClasses ∧ sortedNodupKey v.inheritedMembers) :
    SortInv (setItem items k v) := by
  intro p hp
  rcases mem_setItem items k v p hp with h | h
  · rw [h]; exact hv
  · exact hinv p h

theorem sortInv_lookup (items : Items) (k : String) (v : Item)
    (hinv : SortInv items) (h : lookupItem items k = some v) :
    sortedNodupKey v.derivedClasses ∧ sortedNodupKey v.inheritedMembers :=
  hinv (k, v) (lookupItem_mem items k v h)

theorem sortedNodupKey_sortedDedup (xs : List String) :
    sortedNodupKey (some (sortedDedupByKey xs)) := by
  intro l hl
  injection hl with hl
  rw [← hl]
  exact sortedDedupByKey_sorted_nodup xs

theorem sortedNodupKey_none : sortedNodupKey none := by
  intro l hl; cases hl

theorem sortInv_applyOp (items items' : Items) (op : ItemOp)
    (hinv : SortInv items) (h : applyOp items op = some items') :
    SortInv items' := by
  cases op with
  | compoundDef id kind language =>
    injection h with h
    rw [← h]
    unfold compoundDefEnter
    split
    · cases language with
      | some lang => exact sortInv_setItem _ _ _ hinv ⟨sortedNodupKey_none, sortedNodupKey_none⟩
      | none => exact sortInv_setItem _ _ _ hinv ⟨sortedNodupKey_none, sortedNodupKey_none⟩
    · exact hinv
  | compoundName item_id content =>
    injection h with h
    rw [← h]
    unfold compoundNameChars
    split
    · rename_i it hit
      exact sortInv_setItem _ _ _ hinv (sortInv_lookup items item_id it hinv hit)
    · exact hinv
  | memberDef member_id parent_id kind =>
    injection h with h
    rw [← h]
    unfold memberDefEnter
    split
    · exact sortInv_setItem _ _ _ hinv ⟨sortedNodupKey_none, sortedNodupKey_none⟩
    · exact hinv
  | nameLOAM parent_id member_id =>
    injection h with h
    rw [← h]
    unfold nameLOAM
    split
    · exact hinv
    · rename_i it hit
      split
      · refine sortInv_setItem _ _ _ hinv ⟨?_, ?_⟩
        · exact (sortInv_lookup items parent_id it hinv hit).1
        · exact sortedNodupKey_sortedDedup _
      · exact hinv
  | nameChild parent_id item_id content =>
    simp only [applyOp] at h
    unfold nameChild at h
    simp only [Option.bind_eq_bind, Option.bind_eq_some] at h
    obtain ⟨parent, hp, h⟩ := h
    have hvp := sortInv_lookup _ _ _ hinv hp
    have hinv1 := sortInv_setItem _ parent_id
      { parent with children := some (parent.children.getD [] ++ [item_id]) } hinv hvp
    split at h
    · injection h with h
      rw [← h]
      exact hinv1
    · rename_i it hit
      simp only [Option.bind_eq_some] at h
      obtain ⟨p2, hp2, pfn, hfn, it2, hit2, it3, hit3, h⟩ := h
      have hvit := sortInv_lookup _ _ _ hinv1 hit
      have hinv2 := sortInv_setItem _ item_id { it with name := some content } hinv1 hvit
      have hvit2 := sortInv_lookup _ _ _ hinv2 hit2
      have hinv3 := sortInv_setItem _ item_id
        { it2 with fullName := some (pfn ++ "::" ++ content) } hinv2 hvit2
      have hvit3 := sortInv_lookup _ _ _ hinv3 hit3
      split at h
      · simp only [Option.bind_eq_some] at h
        obtain ⟨p3, hp3, pn, hpn, h⟩ := h
        injection h with h
        rw [← h]
        exact sortInv_setItem _ _ _ hinv3 hvit3
      · injection h with h
        rw [← h]
        exact hinv3
  | signature item_id content =>
    injection h with h
    rw [← h]
    unfold signatureChars
    split
    · rename_i it hit
      exact sortInv_setItem _ _ _ hinv (sortInv_lookup items item_id it hinv hit)
    · exact hinv
  | baseCompoundRef item_id refid =>
    simp only [applyOp] at h
    unfold baseCompoundRefEnter at h
    cases refid with
    | none => injection h with h; rw [← h]; exact hinv
    | some r =>
      simp only [Option.bind_eq_bind, Option.bind_eq_some] at h
      obtain ⟨it, hit, h⟩ := h
      injection h with h
      rw [← h]
      exact sortInv_setItem _ _ _ hinv (sortInv_lookup items item_id it hinv hit)
  | derivedCompoundRef item_id refid =>
    simp only [applyOp] at h
    unfold derivedCompoundRefEnter at h
    simp only [Option.bind_eq_bind, Option.bind_eq_some] at h
    obtain ⟨it, hit, h⟩ := h
    injection h with h
    rw [← h]
    refine sortInv_setItem _ _ _ hinv ⟨sortedNodupKey_sortedDedup _, ?_⟩
    exact (sortInv_lookup items item_id it hinv hit).2
  | reimplementedBy item_id refid =>
    injection h with h
    rw [← h]
    unfold reimplementedByEnter
    split
    · rename_i it hit
      exact sortInv_setItem _ _ _ hinv (sortInv_lookup items item_id it hinv hit)
    · exact hinv
  | briefLeave item_id text =>
    injection h with h
    rw [← h]
    unfold briefLeave
    split
    · rename_i it hit
      exact sortInv_setItem _ _ _ hinv (sortInv_lookup items item_id it hinv hit)
    · exact hinv
  | detailedLeave item_id text =>
    injection h with h
    rw [← h]
    unfold detailedLeave
    split
    · rename_i it hit
      exact sortInv_setItem _ _ _ hinv (sortInv_lookup items item_id it hinv hit)
    · exact hinv
  | location item_id bodyfile bodystart bodyend =>
    simp only [applyOp] at h
    unfold locationEnter at h
    cases hlk : lookupItem items item_id with
    | none =>
      rw [hlk] at h
      cases bodyfile with
      | none => simp only [] at h; injection h with h; rw [← h]; exact hinv
      | some bf => simp only [] at h; injection h with h; rw [← h]; exact hinv
    | some it =>
      rw [hlk] at h
      cases bodyfile with
      | none => simp only [] at h; injection h with h; rw [← h]; exact hinv
      | some bf =>
        simp only [Option.bind_eq_bind, Option.bind_eq_some] at h
        obtain ⟨bs, hbs, start, hstart, h⟩ := h
        have hfin : ∀ src : SourceInfo,
            SortInv (setItem items item_id { it with source := some src }) :=
          fun src => sortInv_setItem _ _ _ hinv (sortInv_lookup items item_id it hinv hlk)
        cases bodyend with
        | none =>
          simp only [Option.pure_def, Option.some_bind] at h
          injection h with h
          rw [← h]
          exact hfin _
        | some be =>
          dsimp only at h
          by_cases hbe : be ≠ "-1"
          · rw [if_pos hbe] at h
            simp only [Option.pure_def, Option.some_bind, Option.bind_eq_some] at h
            obtain ⟨e, he, h⟩ := h
            injection h with h
            rw [← h]
            exact hfin _
          · rw [if_neg hbe] at h
            simp only [Option.pure_def, Option.some_bind] at h
            injection h with h
            rw [← h]
            exact hfin _

theorem sortInv_runOps (ops : List ItemOp) (items0 items : Items)
    (h : runOps items0 ops = some items) (hinv : SortInv items0) :
    SortInv items := by
  induction ops generalizing items0 with
  | nil =>
    simp only [runOps] at h
    injection h with h
    rw [← h]; exact hinv
  | cons op rest ih =>
    simp only [runOps] at h
    cases hop : applyOp items0 op with
    | none => rw [hop] at h; cases h
    | some items1 =>
      rw [hop] at h
      exact ih items1 h (sortInv_applyOp items0 items1 op hinv hop)

/-- C4: after any sequence of Stage A item-graph operations (starting from
the empty mapping of a fresh parse), every item's `derivedClasses` and
`inheritedMembers` lists are sorted by the normalized-id key and contain
no duplicate uids.  The remaining handlers only touch text buffers and
never the item mapping, so this covers every handler operation. -/
theorem c4_sorted_dedup (ops : List ItemOp) (items : Items)
    (h : runOps [] ops = some items) :
    ∀ p ∈ items,
      (∀ l, p.2.derivedClasses = some l → l.Pairwise keyLe ∧ l.Nodup) ∧
      (∀ l, p.2.inheritedMembers = some l → l.Pairwise keyLe ∧ l.Nodup) :=
  sortInv_runOps ops [] items h sortInv_nil

/-- The item produced by registering derived classes `structB`, `classA`,
`structB` (one duplicate) on a fresh compound `classX`. -/
def exDerivedItem : Item :=
  { uid := "classX", id := "classX", type := "class",
    derivedClasses := some ["classA", "structB"] }

theorem c4_sorted_dedup_witness :
    runOps [] [.compoundDef "classX" "class" none,
      .derivedCompoundRef "classX" "structB",
      .derivedCompoundRef "classX" "classA",
      .derivedCompoundRef "classX" "structB"] = some [("classX", exDerivedItem)] ∧
    (∀ l, exDerivedItem.derivedClasses = some l → l.Pairwise keyLe ∧ l.Nodup) := by
  constructor
  · decide
  · intro l hl
    have h := c4_sorted_dedup [.compoundDef "classX" "class" none,
      .derivedCompoundRef "classX" "structB",
      .derivedCompoundRef "classX" "classA",
      .derivedCompoundRef "classX" "structB"]
      [("classX", exDerivedItem)] (by decide)
    exact (h ("classX", exDerivedItem) (by decide)).1 l hl

/-! ## Stage B lemmas (claims C2 and C3) -/

theorem mem_addReferenced (r : List String) (x u : String) :
    u ∈ addReferenced r x ↔ u ∈ r ∨ u = x := by
  unfold addReferenced
  by_cases h : x ∈ r
  · rw [if_pos h]
    constructor
    · exact Or.inl
    · rintro (hu | hu)
      · exact hu
      · exact hu ▸ h
  · rw [if_neg h]
    simp

theorem mem_foldl_addReferenced (xs : List String) (r : List String) (u : String) :
    u ∈ xs.foldl addReferenced r ↔ u ∈ r ∨ u ∈ xs := by
  induction xs generalizing r with
  | nil => simp
  | cons x xs ih =>
    simp only [List.foldl_cons, ih, mem_addReferenced, List.mem_cons]
    tauto

/-- Full per-item characterization of the pass 2 loop body: the rewritten
fields, the untouched fields, and the ownership of the referenced set. -/
theorem processItemB_spec (m : XrefMap) (it : Item) (r : List String) :
    (processItemB m it r).1.parent = (match it.parent with
      | some p => if inXref m p then some p else none
      | none => none) ∧
    (processItemB m it r).1.children =
      it.children.map (List.filter (fun c => inXref m c)) ∧
    (processItemB m it r).1.inheritedMembers =
      it.inheritedMembers.map (List.filter (fun c => inXref m c)) ∧
    (processItemB m it r).1.inheritance = it.inheritance ∧
    (processItemB m it r).1.uid = it.uid ∧
    (processItemB m it r).1.id = it.id ∧
    (processItemB m it r).1.type = it.type ∧
    (processItemB m it r).1.summary = it.summary ∧
    (processItemB m it r).1.name = it.name ∧
    (processItemB m it r).1.fullName = it.fullName ∧
    (processItemB m it r).1.brief = it.brief ∧
    (processItemB m it r).1.description = it.description ∧
    (processItemB m it r).1.sigContent = it.sigContent ∧
    (processItemB m it r).1.derivedClasses = it.derivedClasses ∧
    (processItemB m it r).1.overrides = it.overrides ∧
    (processItemB m it r).1.langs = it.langs ∧
    (processItemB m it r).1.source = it.source := by
  unfold processItemB
  rcases hp : it.parent with _ | p
  · rcases hc : it.children with _ | cs <;>
      rcases hi : it.inheritedMembers with _ | is' <;>
      simp [hp, hc, hi]
  · by_cases hx : inXref m p <;>
      rcases hc : it.children with _ | cs <;>
      rcases hi : it.inheritedMembers with _ | is' <;>
      simp [hp, hc, hi, hx]

/-- The referenced set grows by exactly the uids the item marks. -/
theorem mem_processItemB_ref (m : XrefMap) (it : Item) (r : List String)
    (u : String) : u ∈ (processItemB m it r).2 ↔ u ∈ r ∨ itemMarks m it u := by
  unfold processItemB itemMarks
  rcases hp : it.parent with _ | p
  · rcases hc : it.children with _ | cs <;>
      rcases hi : it.inheritedMembers with _ | is' <;>
      simp [hp, hc, hi, mem_foldl_addReferenced, mem_addReferenced, List.mem_filter] <;>
      aesop
  · by_cases hx : inXref m p <;>
      rcases hc : it.children with _ | cs <;>
      rcases hi : it.inheritedMembers with _ | is' <;>
      simp [hp, hc, hi, hx, mem_foldl_addReferenced, mem_addReferenced, List.mem_filter] <;>
      aesop

/-- The per-record loop rewrites the items pointwise (the rewrite of each
item does not depend on the threaded referenced set). -/
theorem forall2_processItemsB (m : XrefMap) (items : List Item) (r : List String) :
    List.Forall₂ (fun it it' =>
      it'.parent = (match it.parent with
        | some p => if inXref m p then some p else none
        | none => none) ∧
      it'.children = it.children.map (List.filter (fun c => inXref m c)) ∧
      it'.inheritedMembers = it.inheritedMembers.map (List.filter (fun c => inXref m c)) ∧
      it'.inheritance = it.inheritance ∧ it'.uid = it.uid ∧ it'.id = it.id ∧
      it'.type = it.type ∧ it'.summary = it.summary ∧ it'.name = it.name ∧
      it'.fullName = it.fullName ∧ it'.brief = it.brief ∧
      it'.description = it.description ∧ it'.sigContent = it.sigContent ∧
      it'.derivedClasses = it.derivedClasses ∧ it'.overrides = it.overrides ∧
      it'.langs = it.langs ∧ it'.source = it.source)
      items (processItemsB m items r).1 := by
  induction items generalizing r with
  | nil => exact List.Forall₂.nil
  | cons it rest ih =>
    exact List.Forall₂.cons (processItemB_spec m it r) (ih _)

/-- The referenced set after the whole loop holds exactly the uids some
item marks (beyond the inherited accumulator). -/
theorem mem_processItemsB_ref (m : XrefMap) (items : List Item)
    (r : List String) (u : String) :
    u ∈ (processItemsB m items r).2 ↔ u ∈ r ∨ ∃ it ∈ items, itemMarks m it u := by
  induction items generalizing r with
  | nil => simp [processItemsB]
  | cons it rest ih =>
    simp only [processItemsB, ih, mem_processItemB_ref, List.mem_cons]
    constructor
    · rintro ((hu | hu) | ⟨it', hit', hm⟩)
      · exact Or.inl hu
      · exact Or.inr ⟨it, Or.inl rfl, hu⟩
      · exact Or.inr ⟨it', Or.inr hit', hm⟩
    · rintro (hu | ⟨it', hit' | hit', hm⟩)
      · exact Or.inl (Or.inl hu)
      · exact Or.inl (Or.inr (hit' ▸ hm))
      · exact Or.inr ⟨it', hit', hm⟩

/-- C2: Stage B's rewrite pass, per record: an item's `parent` is deleted
exactly when it is absent from the global map and otherwise its uid is
marked referenced; `children` and `inheritedMembers` are filtered to
exactly the uids present in the global map, each retained uid marked; and
the attached `references` list holds the GlobalReference of every uid
marked while processing the record, and no others. -/
theorem c2_stageB_rewrite (m : XrefMap) (items : List Item) :
    List.Forall₂ (fun it it' =>
      it'.parent = (match it.parent with
        | some p => if inXref m p then some p else none
        | none => none) ∧
      it'.children = it.children.map (List.filter (fun c => inXref m c)) ∧
      it'.inheritedMembers = it.inheritedMembers.map (List.filter (fun c => inXref m c)))
      items (processRecordB m items).1 ∧
    (∀ u, u ∈ (processItemsB m items []).2 ↔ ∃ it ∈ items, itemMarks m it u) ∧
    (∀ g, g ∈ (processRecordB m items).2 ↔
      ∃ u ∈ (processItemsB m items []).2, List.lookup u m = some g) := by
  refine ⟨?_, fun u => ?_, fun g => ?_⟩
  · exact (forall2_processItemsB m items []).imp
      (fun a b h => ⟨h.1, h.2.1, h.2.2.1⟩)
  · rw [mem_processItemsB_ref]
    simp
  · exact List.mem_filterMap

/-- C3: Stage B never modifies an item's `inheritance` field — nor any
field other than `parent`, `children`, and `inheritedMembers`: after the
rewrite pass every other field is exactly what Stage A wrote, even when
`inheritance` contains uids absent from the global reference map. -/
theorem c3_inheritance_frame (m : XrefMap) (items : List Item) :
    List.Forall₂ (fun it it' =>
      it'.inheritance = it.inheritance ∧ it'.uid = it.uid ∧ it'.id = it.id ∧
      it'.type = it.type ∧ it'.summary = it.summary ∧ it'.name = it.name ∧
      it'.fullName = it.fullName ∧ it'.brief = it.brief ∧
      it'.description = it.description ∧ it'.sigContent = it.sigContent ∧
      it'.derivedClasses = it.derivedClasses ∧ it'.overrides = it.overrides ∧
      it'.langs = it.langs ∧ it'.source = it.source)
      items (processRecordB m items).1 :=
  (forall2_processItemsB m items []).imp (fun a b h => h.2.2.2)

end QioDoc
